import Mathlib

/-!
# Verification of `pattrns`' cycle emitter (`src/emitter/cycle.rs`)

A shallow embedding of the cycle-to-note merging and mapping engine:
the value resolver (`TryFrom<&CycleValue> for Vec<Option<NoteEvent>>`),
the property applier (`apply_cycle_note_properties`), the event
accumulator (`CycleNoteEvents`) and the emitter orchestration
(`CycleEmitter::map_note_event`, `generate`, `Emitter::run`).

Modelling conventions:
* Rust `Rational32` fractions become `ℚ`; only exact comparison and `min`
  are used by the code, so this is faithful.
* Rust `f64`/`f32` note-property values become `ℚ`: the code performs no
  float arithmetic on them, only range comparisons, which `ℚ` models
  exactly; the `f64`-to-`f32` cast is the identity in this model.
* `Vec` becomes `List`; `Vec::resize`, `Vec::resize_with` and indexing are
  modelled by `listResize` / `List.set` / `List.getD` below.
* Fallible Rust functions returning `Result` become `Except String`.
* `panic!` aborts are modelled by `PanicOr`.
* Types owned by other modules of the repository (`Note`, `NoteEvent`,
  `CycleEvent`, `Cycle`, chord tables) are modelled from the spec, marked
  by doc comments.
-/

/-- Rust `type Fraction = num_rational::Rational32`: exact rational time. -/
abbrev Fraction := ℚ

/-- Modelled from the spec: a pitch value or an explicit OFF sentinel
(`crate::Note`, external to the emitter module). -/
inductive Note where
  | off : Note
  | midi (pitch : Int) : Note
deriving DecidableEq, Repr

/-- Modelled from the spec: instrument id (`crate::InstrumentId`), an index. -/
abbrev InstrumentId := Nat

/-- Modelled from the spec: note event
`{instrument: optional id, note, volume, panning, delay}`. -/
structure NoteEvent where
  instrument : Option InstrumentId
  note : Note
  volume : ℚ
  panning : ℚ
  delay : ℚ
deriving DecidableEq, Repr

/-- Modelled from the spec: `crate::event::new_note` builds a (populated)
note-event slot; freshly resolved notes default to volume 1.0, panning 0.0,
delay 0.0, instrument unset. -/
def new_note (n : Note) : Option NoteEvent :=
  some { instrument := none, note := n, volume := 1, panning := 0, delay := 0 }

/-- Modelled from the spec: symbolic pattern value (`crate::CycleValue`,
produced per channel per step by the external generator). `Float`'s payload
and `Pitch`'s structure are irrelevant to the emitter beyond what is kept. -/
inductive CycleValue where
  | Hold : CycleValue
  | Rest : CycleValue
  | Float (value : ℚ) : CycleValue
  | Integer (i : Int) : CycleValue
  | Pitch (midi_note : Int) : CycleValue
  | Chord (midi_note : Int) (mode : String) : CycleValue
  | Target : CycleValue
  | Name (s : String) : CycleValue
deriving DecidableEq, Repr

/-- Modelled from the spec: inline target (`crate::CycleTarget`): a bare
instrument index or a named property with an optional numeric value. -/
inductive CycleTarget where
  | Index (i : Int) : CycleTarget
  | Named (name : String) (value : Option ℚ) : CycleTarget
deriving DecidableEq, Repr

/-- Modelled from the spec: one parsed cycle event (`crate::CycleEvent`) with
its raw textual token, symbolic value, inline targets and fractional span. -/
structure CycleEvent where
  string : String
  value : CycleValue
  targets : List CycleTarget
  start : Fraction
  length : Fraction
deriving DecidableEq, Repr

/-- Rust `str::eq_ignore_ascii_case`: ASCII-case-insensitive equality. -/
def eqIgnoreAsciiCase (a b : String) : Bool :=
  a.data.map Char.toLower == b.data.map Char.toLower

/-- Modelled from the spec: the chord-interval resolution table is an
external collaborator; it maps a chord-mode name to the list of intervals,
or nothing when the mode is unknown. The development is parameterized over
it. -/
abbrev ChordTable := String → Option (List Int)

/-- Modelled from the spec: transposing a note by an interval
(`Note::transposed`, external). An OFF sentinel stays OFF. -/
def Note.transposed (n : Note) (i : Int) : Note :=
  match n with
  | .off => .off
  | .midi p => .midi (p + i)

/-- Modelled from the spec: `Chord::try_from((midi_note, mode))` resolves a
chord mode into a root note plus intervals, failing with an error naming the
offending mode when the mode is unknown. -/
def Chord.tryFrom (table : ChordTable) (midi_note : Int) (mode : String) :
    Except String (Int × List Int) :=
  match table mode with
  | some intervals => .ok (midi_note, intervals)
  | none => .error ("invalid chord mode: '" ++ mode ++ "'")

/-- `TryFrom<&CycleValue> for Vec<Option<NoteEvent>>`: the default
conversion of a `CycleValue` into a note stack (`cycle.rs` lines 15-43). -/
def tryFromCycleValue (table : ChordTable) (value : CycleValue) :
    Except String (List (Option NoteEvent)) :=
  match value with
  | .Hold => .ok [none]
  | .Rest => .ok [new_note Note.off]
  | .Float _ => .ok [none]
  | .Integer i => .ok [new_note (Note.midi (max 0 (min i 0x7f)))]
  | .Pitch p => .ok [new_note (Note.midi p)]
  | .Chord p m =>
    match Chord.tryFrom table p m with
    | .ok (root, intervals) =>
      .ok (intervals.map (fun i => new_note ((Note.midi root).transposed i)))
    | .error e => .error e
  | .Target => .ok [none]
  | .Name s =>
    if eqIgnoreAsciiCase s "off" then
      .ok [new_note Note.off]
    else
      .ok [none]

/-- The concrete float ranges used by `apply_cycle_note_properties`:
`lo..=hi` (closed) and `lo..hi` (half-open). -/
inductive FloatRange where
  | closed (lo hi : ℚ) : FloatRange
  | halfOpen (lo hi : ℚ) : FloatRange
deriving DecidableEq, Repr

/-- `RangeBounds::contains` for the two range shapes used. -/
def FloatRange.containsQ : FloatRange → ℚ → Bool
  | .closed lo hi, v => lo ≤ v && v ≤ hi
  | .halfOpen lo hi, v => lo ≤ v && v < hi

/-- Debug rendering of a range, as interpolated into error messages. -/
def FloatRange.render : FloatRange → String
  | .closed lo hi => toString lo ++ "..=" ++ toString hi
  | .halfOpen lo hi => toString lo ++ ".." ++ toString hi

/-- `float_value_in_range` (`cycle.rs` lines 48-69): check that an optional
numeric target value is present and inside the range. -/
def float_value_in_range (maybe_float : Option ℚ) (name : String)
    (range : FloatRange) : Except String ℚ :=
  match maybe_float with
  | none => .error (name ++ " property must be a number value")
  | some v =>
    if range.containsQ v then
      .ok v
    else
      .error (name ++ " property must be in range [" ++ range.render ++
        "] but is '" ++ toString v ++ "'")

/-- `integer_value_in_range` (`cycle.rs` lines 71-87); the only range used
is `0..`, a lower-bounded range. -/
def integer_value_in_range (value : Int) (name : String) (lo : Int) :
    Except String Int :=
  if lo ≤ value then
    .ok value
  else
    .error (name ++ " property must be in range [" ++ toString lo ++
      "..] but is '" ++ toString value ++ "'")

/-- Applies one property value to every populated (`Some`) slot:
`note_events.iter_mut().flatten()` followed by a field assignment. -/
def setOnPopulated (note_events : List (Option NoteEvent))
    (f : NoteEvent → NoteEvent) : List (Option NoteEvent) :=
  note_events.map (Option.map f)

/-- The body of the `for target in targets` loop of
`apply_cycle_note_properties` (`cycle.rs` lines 100-138): one target either
fails (leaving the stack untouched, since the range check precedes the
mutation loop) or succeeds having set its property on every populated slot. -/
def applySingleTarget (note_events : List (Option NoteEvent))
    (target : CycleTarget) : Except String (List (Option NoteEvent)) :=
  match target with
  | .Index index =>
    match integer_value_in_range index "instrument" 0 with
    | .ok i =>
      .ok (setOnPopulated note_events
        (fun ne => { ne with instrument := some i.toNat }))
    | .error e => .error e
  | .Named name value =>
    if name = "v" then
      match float_value_in_range value "volume" (.closed 0 1) with
      | .ok volume =>
        .ok (setOnPopulated note_events (fun ne => { ne with volume }))
      | .error e => .error e
    else if name = "p" then
      match float_value_in_range value "panning" (.closed (-1) 1) with
      | .ok panning =>
        .ok (setOnPopulated note_events (fun ne => { ne with panning }))
      | .error e => .error e
    else if name = "d" then
      match float_value_in_range value "delay" (.halfOpen 0 1) with
      | .ok delay =>
        .ok (setOnPopulated note_events (fun ne => { ne with delay }))
      | .error e => .error e
    else
      .error ("invalid note property: '" ++ name ++ "'. " ++
        "expecting number values with '#' (instrument),'v' (volume), " ++
        "'p' (panning) or 'd' (delay) prefixes here.")

/-- The `for` loop of `apply_cycle_note_properties`: targets are applied in
order; an early `return Err` leaves the mutations performed so far in the
(by-reference) note stack, so the fold returns the current stack together
with the error. -/
def applyTargetsLoop (note_events : List (Option NoteEvent))
    (targets : List CycleTarget) :
    List (Option NoteEvent) × Except String Unit :=
  match targets with
  | [] => (note_events, .ok ())
  | t :: rest =>
    match applySingleTarget note_events t with
    | .ok updated => applyTargetsLoop updated rest
    | .error e => (note_events, .error e)

/-- `apply_cycle_note_properties` (`cycle.rs` lines 90-141). The Rust
function mutates `note_events` in place and returns `Result<(), String>`;
here the final state of the stack is returned alongside the result. -/
def apply_cycle_note_properties (note_events : List (Option NoteEvent))
    (targets : List CycleTarget) :
    List (Option NoteEvent) × Except String Unit :=
  if targets.isEmpty || note_events.isEmpty then
    (note_events, .ok ())
  else
    applyTargetsLoop note_events targets

/-- `crate::Event` as used inside the emitter module: the only variant the
module ever constructs or inspects is `Event::NoteEvents`. -/
inductive Event where
  | NoteEvents (notes : List (Option NoteEvent)) : Event
deriving DecidableEq, Repr

/-- `Vec::resize(n, x)`: truncate or extend with copies of `x` so that the
result has length exactly `n`. -/
def listResize (l : List α) (n : Nat) (x : α) : List α :=
  l.take n ++ List.replicate (n - l.length) x

/-- `CycleNoteEvents` (`cycle.rs` lines 146-151): the per-pass accumulator.
`events` is the ordered-by-start list of `(start, length, per-channel
optional event slot)`; `event_counts` records each channel's maximum
note-stack width seen in the pass. -/
structure CycleNoteEvents where
  events : List (Fraction × Fraction × List (Option Event))
  event_counts : List Nat
deriving DecidableEq, Repr

/-- `CycleNoteEvents::new`: the empty accumulator. -/
def CycleNoteEvents.new : CycleNoteEvents :=
  { events := [], event_counts := [] }

/-- The `binary_search_by` dispatch of `CycleNoteEvents::add` (`cycle.rs`
lines 178-198), modelled as ordered search: on the strictly-sorted `events`
lists the accumulator maintains, `binary_search_by` finds exactly the
position of the first entry with time `≥ start`, which this linear walk
computes. `Ok(pos)` becomes the middle branch, `Err(pos)` the insertions. -/
def addToEvents (events : List (Fraction × Fraction × List (Option Event)))
    (channel : Nat) (start length : Fraction)
    (note_events : List (Option NoteEvent)) :
    List (Fraction × Fraction × List (Option Event)) :=
  match events with
  | [] =>
    [(start, length,
      (List.replicate (channel + 1) none).set channel
        (some (Event.NoteEvents note_events)))]
  | (time, len, slots) :: rest =>
    if start < time then
      (start, length,
        (List.replicate (channel + 1) none).set channel
          (some (Event.NoteEvents note_events))) :: (time, len, slots) :: rest
    else if start = time then
      (time, min len length,
        (listResize slots (channel + 1) none).set channel
          (some (Event.NoteEvents note_events))) :: rest
    else
      (time, len, slots) :: addToEvents rest channel start length note_events

/-- `CycleNoteEvents::add` (`cycle.rs` lines 165-199): grow `event_counts`
to cover `channel`, record the max stack width, then insert or update the
time slot. -/
def CycleNoteEvents.add (s : CycleNoteEvents) (channel : Nat)
    (start length : Fraction) (note_events : List (Option NoteEvent)) :
    CycleNoteEvents :=
  let counts :=
    if s.event_counts.length ≤ channel then
      listResize s.event_counts (channel + 1) 0
    else
      s.event_counts
  let counts := counts.set channel (max (counts.getD channel 0) note_events.length)
  { events := addToEvents s.events channel start length note_events,
    event_counts := counts }

/-- Modelled from the spec: `EmitterEvent::new_with_fraction(event, start,
length)`, the composite unit returned to the outer engine. -/
structure EmitterEvent where
  event : Event
  start : Fraction
  length : Fraction
deriving DecidableEq, Repr

/-- The per-channel padding step of `into_event_iter_items` (`cycle.rs`
lines 209-217): an existing stack is resized with OFF notes to the
channel's max width; an absent one with positive max width becomes a stack
of `None` of that width. -/
def padChannelEvent (event_counts : List Nat) (channel : Nat)
    (event : Option Event) : Option Event :=
  match event with
  | some (Event.NoteEvents note_events) =>
    some (Event.NoteEvents
      (listResize note_events (event_counts.getD channel 0)
        (new_note Note.off)))
  | none =>
    if event_counts.getD channel 0 > 0 then
      some (Event.NoteEvents
        (List.replicate (event_counts.getD channel 0) none))
    else
      none

/-- The merge loop of `into_event_iter_items` (`cycle.rs` lines 219-224):
append every present channel's padded stack, in channel order. -/
def mergeChannelEvents (padded : List (Option Event)) :
    List (Option NoteEvent) :=
  match padded with
  | [] => []
  | some (Event.NoteEvents note_events) :: rest =>
    note_events ++ mergeChannelEvents rest
  | none :: rest => mergeChannelEvents rest

/-- The body of the outer `for (start_time, length, mut events)` loop of
`into_event_iter_items` (`cycle.rs` lines 207-227): pad one instant's
channels, merge them down, wrap into a composite event. -/
def flattenEntry (event_counts : List Nat)
    (entry : Fraction × Fraction × List (Option Event)) : EmitterEvent :=
  let padded := entry.2.2.enum.map
    (fun ce => padChannelEvent event_counts ce.1 ce.2)
  { event := Event.NoteEvents (mergeChannelEvents padded),
    start := entry.1, length := entry.2.1 }

/-- `CycleNoteEvents::into_event_iter_items` (`cycle.rs` lines 202-230):
pad each instant's channels, merge them down and wrap into composite
events. -/
def CycleNoteEvents.into_event_iter_items (s : CycleNoteEvents) :
    List EmitterEvent :=
  s.events.map (flattenEntry s.event_counts)

/-- The emitter's mapping table (`HashMap<String, Vec<Option<NoteEvent>>>`),
modelled as an association list with first-match lookup. -/
abbrev Mappings := List (String × List (Option NoteEvent))

/-- `HashMap::get` on the mapping table. -/
def lookupMapping (m : Mappings) (key : String) :
    Option (List (Option NoteEvent)) :=
  (m.find? (fun kv => kv.1 = key)).map (·.2)

/-- The final step of `map_note_event`:
`apply_cycle_note_properties(&mut note_events, event.targets())?;
Ok(note_events)` — propagate the applier's error, otherwise return the
updated stack. -/
def applyPropsExcept (note_events : List (Option NoteEvent))
    (targets : List CycleTarget) : Except String (List (Option NoteEvent)) :=
  match apply_cycle_note_properties note_events targets with
  | (updated, .ok ()) => .ok updated
  | (_, .error e) => .error e

/-- `CycleEmitter::map_note_event` (`cycle.rs` lines 282-295): mapping-table
lookup on the raw token first (the literal override used verbatim on a
hit), resolver fallback on a miss, then the property applier with the
event's inline targets; errors propagate. -/
def map_note_event (mappings : Mappings) (table : ChordTable)
    (event : CycleEvent) : Except String (List (Option NoteEvent)) :=
  let base : Except String (List (Option NoteEvent)) :=
    match lookupMapping mappings event.string with
    | some note_events => .ok note_events
    | none => tryFromCycleValue table event.value
  match base with
  | .error e => .error e
  | .ok note_events => applyPropsExcept note_events event.targets

/-- A computation that either completes or aborts the process via
`panic!` with a message. -/
inductive PanicOr (α : Type) where
  | panicked (msg : String) : PanicOr α
  | ok (value : α) : PanicOr α
deriving DecidableEq, Repr

/-- The inner `for event in channel_events` loop of `CycleEmitter::generate`
(`cycle.rs` lines 313-327): map each event, feed every non-empty resulting
stack into the accumulator, and `panic!` on any mapping error. -/
def processChannelEvents (mappings : Mappings) (table : ChordTable)
    (channel_index : Nat) (events : List CycleEvent)
    (acc : CycleNoteEvents) : PanicOr CycleNoteEvents :=
  match events with
  | [] => .ok acc
  | event :: rest =>
    match map_note_event mappings table event with
    | .ok note_events =>
      if note_events.isEmpty then
        processChannelEvents mappings table channel_index rest acc
      else
        processChannelEvents mappings table channel_index rest
          (acc.add channel_index event.start event.length note_events)
    | .error err => .panicked ("Cycle runtime error: " ++ err)

/-- The outer `for (channel_index, channel_events)` loop of
`CycleEmitter::generate` (`cycle.rs` line 312). -/
def processChannels (mappings : Mappings) (table : ChordTable)
    (channel_index : Nat) (channels : List (List CycleEvent))
    (acc : CycleNoteEvents) : PanicOr CycleNoteEvents :=
  match channels with
  | [] => .ok acc
  | events :: rest =>
    match processChannelEvents mappings table channel_index events acc with
    | .ok acc => processChannels mappings table (channel_index + 1) rest acc
    | .panicked msg => .panicked msg

/-- Modelled from the spec: the external pattern generator (`crate::Cycle`).
Per the spec its `generate` is pure with respect to progression (peeking
never advances; only `advance` moves the cursor), so one step's output is a
function of the cycle state, here carried directly: per-channel lists of
parsed events, or the generator's internal error (event-count safety
limit). -/
structure CycleGen where
  genOutput : Except String (List (List CycleEvent))

/-- `Cycle::generate`, pure per the spec (see `CycleGen`). -/
def CycleGen.generate (c : CycleGen) : Except String (List (List CycleEvent)) :=
  c.genOutput

/-- `CycleEmitter` (`cycle.rs` lines 242-245): the cycle state plus the
immutable mapping table. The chord table is carried explicitly here because
chord resolution is an external collaborator the development is
parameterized over. -/
structure CycleEmitter where
  cycle : CycleGen
  mappings : Mappings

/-- `CycleEmitter::generate` (`cycle.rs` lines 299-331): run the external
generator (panicking on its error), convert every channel's events through
`map_note_event` into a fresh accumulator (panicking on any mapping error),
then flatten. -/
def CycleEmitter.generate (table : ChordTable) (e : CycleEmitter) :
    PanicOr (List EmitterEvent) :=
  match e.cycle.generate with
  | .error err => .panicked ("Cycle runtime error: " ++ err)
  | .ok events =>
    match processChannels e.mappings table 0 events CycleNoteEvents.new with
    | .ok acc => .ok acc.into_event_iter_items
    | .panicked msg => .panicked msg

/-- Modelled from the spec: the rhythm pulse handed to `Emitter::run`; the
cycle emitter ignores it entirely. -/
structure RhythmEvent where
deriving DecidableEq, Repr

/-- `Emitter::run` for `CycleEmitter` (`cycle.rs` lines 347-353): when
`emit_event` is false return nothing, otherwise a freshly generated batch.
The Rust method takes `&mut self`; the emitter state is returned alongside
the result to make its (non-)mutation explicit. -/
def CycleEmitter.run (table : ChordTable) (e : CycleEmitter)
    (_pulse : RhythmEvent) (emit_event : Bool) :
    Option (PanicOr (List EmitterEvent)) × CycleEmitter :=
  if emit_event then
    (some (CycleEmitter.generate table e), e)
  else
    (none, e)

/-- The list of start times stored in the accumulator, in storage order. -/
def startsOf (s : CycleNoteEvents) : List Fraction :=
  s.events.map (·.1)

/-- The stored `(start, length, slots)` entry at time `t`, if any. -/
def findSlot (s : CycleNoteEvents) (t : Fraction) :
    Option (Fraction × Fraction × List (Option Event)) :=
  s.events.find? (fun e => e.1 = t)

/-- The length stored at time `t`, if an entry exists. -/
def storedLength (s : CycleNoteEvents) (t : Fraction) : Option Fraction :=
  (findSlot s t).map (·.2.1)

/-- Channel `c`'s stored event at time `t` (absent slots read as `none`). -/
def storedEntry (s : CycleNoteEvents) (t : Fraction) (c : Nat) :
    Option Event :=
  match findSlot s t with
  | some e => e.2.2.getD c none
  | none => none

/-- The width (note-slot count) of a composite event's stack. -/
def EmitterEvent.stackWidth (e : EmitterEvent) : Nat :=
  match e.event with
  | .NoteEvents notes => notes.length


/-- C9: for every note stack and target list, if the target list is empty
or the note stack is empty, applying properties succeeds and leaves the
note stack completely unchanged. -/
theorem C9_apply_empty_is_noop (note_events : List (Option NoteEvent))
    (targets : List CycleTarget)
    (h : targets = [] ∨ note_events = []) :
    apply_cycle_note_properties note_events targets =
      (note_events, Except.ok ()) := by
  rcases h with h | h <;> subst h <;>
    simp [apply_cycle_note_properties]

/-- Witness for C9 at concrete inputs: a nonempty stack with no targets,
and a target list on an empty stack. -/
theorem C9_apply_empty_is_noop_witness :
    apply_cycle_note_properties [new_note (Note.midi 60)] [] =
        ([new_note (Note.midi 60)], Except.ok ()) ∧
      apply_cycle_note_properties [] [CycleTarget.Index (-3)] =
        ([], Except.ok ()) :=
  ⟨C9_apply_empty_is_noop [new_note (Note.midi 60)] [] (Or.inl rfl),
   C9_apply_empty_is_noop [] [CycleTarget.Index (-3)] (Or.inr rfl)⟩

/-- C8: `Emitter::run` returns nothing when the fire flag is false; when
true it returns a freshly generated batch and leaves the emitter state
untouched, so repeated peeks from the same state return the same batch. -/
theorem C8_run_peek_pure (table : ChordTable) (e : CycleEmitter)
    (pulse : RhythmEvent) :
    CycleEmitter.run table e pulse false = (none, e) ∧
      CycleEmitter.run table e pulse true =
        (some (CycleEmitter.generate table e), e) ∧
      (CycleEmitter.run table
          ((CycleEmitter.run table e pulse true).2) pulse true).1 =
        (CycleEmitter.run table e pulse true).1 := by
  refine ⟨rfl, rfl, rfl⟩

/-- C5: the value resolver returns `[None]` for Hold, Float and Target;
`[Some(OFF)]` for Rest and for a Name equal to "off" case-insensitively
(otherwise `[None]`); a single clamped-pitch note for Integer; a single
note at the pitch's numeric value for Pitch; and for Chord one note per
interval, the root transposed by the interval, failing exactly when the
chord mode is unknown to the table. -/
theorem C5_resolver_cases (table : ChordTable) :
    tryFromCycleValue table CycleValue.Hold = Except.ok [none] ∧
    (∀ q : ℚ, tryFromCycleValue table (CycleValue.Float q) =
      Except.ok [none]) ∧
    tryFromCycleValue table CycleValue.Target = Except.ok [none] ∧
    tryFromCycleValue table CycleValue.Rest =
      Except.ok [new_note Note.off] ∧
    (∀ s : String, eqIgnoreAsciiCase s "off" = true →
      tryFromCycleValue table (CycleValue.Name s) =
        Except.ok [new_note Note.off]) ∧
    (∀ s : String, eqIgnoreAsciiCase s "off" = false →
      tryFromCycleValue table (CycleValue.Name s) = Except.ok [none]) ∧
    (∀ i : Int, ∃ p : Int,
      tryFromCycleValue table (CycleValue.Integer i) =
          Except.ok [new_note (Note.midi p)] ∧
        0 ≤ p ∧ p ≤ 127 ∧ (0 ≤ i → i ≤ 127 → p = i) ∧
        (i < 0 → p = 0) ∧ (127 < i → p = 127)) ∧
    (∀ p : Int, tryFromCycleValue table (CycleValue.Pitch p) =
      Except.ok [new_note (Note.midi p)]) ∧
    (∀ (root : Int) (mode : String) (intervals : List Int),
      table mode = some intervals →
      tryFromCycleValue table (CycleValue.Chord root mode) =
        Except.ok (intervals.map
          (fun i => new_note (Note.midi (root + i))))) ∧
    (∀ (root : Int) (mode : String), table mode = none →
      tryFromCycleValue table (CycleValue.Chord root mode) =
        Except.error ("invalid chord mode: '" ++ mode ++ "'")) := by
  refine ⟨rfl, fun q => rfl, rfl, rfl, ?_, ?_, ?_, fun p => rfl, ?_, ?_⟩
  · intro s hs
    simp [tryFromCycleValue, hs]
  · intro s hs
    simp [tryFromCycleValue, hs]
  · intro i
    refine ⟨max 0 (min i 127), rfl, ?_, ?_, ?_, ?_, ?_⟩ <;> omega
  · intro root mode intervals hmode
    simp [tryFromCycleValue, Chord.tryFrom, hmode, Note.transposed]
  · intro root mode hmode
    simp [tryFromCycleValue, Chord.tryFrom, hmode]

/-- Witness for C5 with a concrete chord table: the chord mode "major"
expands from root 60; mode "blah" fails; "OFF" maps case-insensitively to
an OFF note; "bd" maps to `[None]`; integers are clamped at both ends. -/
theorem C5_resolver_cases_witness :
    (tryFromCycleValue
        (fun m => if m = "major" then some [0, 4, 7] else none)
        (CycleValue.Name "OFF") = Except.ok [new_note Note.off]) ∧
    (tryFromCycleValue
        (fun m => if m = "major" then some [0, 4, 7] else none)
        (CycleValue.Name "bd") = Except.ok [none]) ∧
    (tryFromCycleValue
        (fun m => if m = "major" then some [0, 4, 7] else none)
        (CycleValue.Chord 60 "major") =
      Except.ok [new_note (Note.midi 60), new_note (Note.midi 64),
        new_note (Note.midi 67)]) ∧
    (tryFromCycleValue
        (fun m => if m = "major" then some [0, 4, 7] else none)
        (CycleValue.Chord 60 "blah") =
      Except.error ("invalid chord mode: '" ++ "blah" ++ "'")) := by
  have h := C5_resolver_cases
    (fun m => if m = "major" then some [0, 4, 7] else none)
  refine ⟨h.2.2.2.2.1 "OFF" (by decide),
    h.2.2.2.2.2.1 "bd" (by decide),
    ?_,
    h.2.2.2.2.2.2.2.2.2 60 "blah" (by simp)⟩
  have h3 := h.2.2.2.2.2.2.2.2.1 60 "major" [0, 4, 7] (by simp)
  simpa using h3

/-- C4: `map_note_event` looks the event's raw token up in the mapping
table first; on a hit it uses the stored literal stack verbatim — the
result does not depend on the event's symbolic value, so the resolver and
chord expansion are never consulted; on a miss it resolves via the
resolver; in both cases it finishes with the property applier on the
event's inline targets, propagating any error. -/
theorem C4_map_one_dispatch (mappings : Mappings) (table : ChordTable)
    (ev : CycleEvent) :
    (∀ ne, lookupMapping mappings ev.string = some ne →
      map_note_event mappings table ev = applyPropsExcept ne ev.targets ∧
      ∀ v : CycleValue,
        map_note_event mappings table { ev with value := v } =
          applyPropsExcept ne ev.targets) ∧
    (lookupMapping mappings ev.string = none →
      map_note_event mappings table ev =
        (tryFromCycleValue table ev.value).bind
          (fun ne => applyPropsExcept ne ev.targets)) := by
  constructor
  · intro ne hne
    exact ⟨by simp [map_note_event, hne], fun v => by simp [map_note_event, hne]⟩
  · intro hnone
    simp only [map_note_event, hnone]
    cases tryFromCycleValue table ev.value <;> simp [Except.bind]

/-- Witness for C4: the mapping-table entry `"bd" → [C1-ish note]`
overrides the resolver for token "bd", which would otherwise resolve via
the Name branch to `[None]`. -/
theorem C4_map_one_dispatch_witness :
    map_note_event [("bd", [new_note (Note.midi 36)])] (fun _ => none)
        { string := "bd", value := CycleValue.Name "bd", targets := [],
          start := 0, length := 1 } =
      Except.ok [new_note (Note.midi 36)] ∧
    tryFromCycleValue (fun _ => none) (CycleValue.Name "bd") =
      Except.ok [none] := by
  have h := (C4_map_one_dispatch [("bd", [new_note (Note.midi 36)])]
    (fun _ => none)
    { string := "bd", value := CycleValue.Name "bd", targets := [],
      start := 0, length := 1 }).1 [new_note (Note.midi 36)] (by decide)
  exact ⟨h.1.trans rfl, rfl⟩

/-- Unfolding of the applier on a nonempty stack and a single target. -/
theorem apply_props_single (a : Option NoteEvent) (l : List (Option NoteEvent))
    (t : CycleTarget) :
    apply_cycle_note_properties (a :: l) [t] =
      match applySingleTarget (a :: l) t with
      | .ok updated => (updated, Except.ok ())
      | .error e => (a :: l, Except.error e) := by
  simp only [apply_cycle_note_properties, List.isEmpty, Bool.or_false,
    applyTargetsLoop]
  cases applySingleTarget (a :: l) t <;> simp [applyTargetsLoop]

/-- Unfolding of the applier on a nonempty stack and two targets. -/
theorem apply_props_pair (a : Option NoteEvent) (l : List (Option NoteEvent))
    (t₁ t₂ : CycleTarget) :
    apply_cycle_note_properties (a :: l) [t₁, t₂] =
      match applySingleTarget (a :: l) t₁ with
      | .ok updated =>
        (match applySingleTarget updated t₂ with
          | .ok updated₂ => (updated₂, Except.ok ())
          | .error e => (updated, Except.error e))
      | .error e => (a :: l, Except.error e) := by
  cases h₁ : applySingleTarget (a :: l) t₁ with
  | error e => simp [apply_cycle_note_properties, applyTargetsLoop, h₁]
  | ok u =>
    cases h₂ : applySingleTarget u t₂ <;>
      simp [apply_cycle_note_properties, applyTargetsLoop, h₁, h₂]

/-- C6: on a non-empty stack the applier enforces bounds exactly — volume
in `[0,1]`, panning in `[-1,1]`, delay in `[0,1)` (1.0 rejected),
instrument index `≥ 0` (negative rejected with an error naming
"instrument"), unknown names rejected with an error listing the accepted
set — and a valid target sets its property on every populated slot, later
targets overwriting earlier ones for the same property. -/
theorem C6_applier_bounds (note_events : List (Option NoteEvent))
    (hne : note_events ≠ []) :
    (∀ v : ℚ,
      (apply_cycle_note_properties note_events
          [CycleTarget.Named "v" (some v)]).2 = Except.ok () ↔
        0 ≤ v ∧ v ≤ 1) ∧
    (∀ v : ℚ,
      (apply_cycle_note_properties note_events
          [CycleTarget.Named "p" (some v)]).2 = Except.ok () ↔
        -1 ≤ v ∧ v ≤ 1) ∧
    (∀ v : ℚ,
      (apply_cycle_note_properties note_events
          [CycleTarget.Named "d" (some v)]).2 = Except.ok () ↔
        0 ≤ v ∧ v < 1) ∧
    (∀ i : Int,
      (apply_cycle_note_properties note_events
          [CycleTarget.Index i]).2 = Except.ok () ↔ 0 ≤ i) ∧
    (∀ i : Int, i < 0 →
      (apply_cycle_note_properties note_events [CycleTarget.Index i]).2 =
        Except.error ("instrument property must be in range [" ++
          toString (0 : Int) ++ "..] but is '" ++ toString i ++ "'")) ∧
    (∀ (name : String) (val : Option ℚ),
      name ≠ "v" → name ≠ "p" → name ≠ "d" →
      (apply_cycle_note_properties note_events
          [CycleTarget.Named name val]).2 =
        Except.error ("invalid note property: '" ++ name ++ "'. " ++
          "expecting number values with '#' (instrument),'v' (volume), " ++
          "'p' (panning) or 'd' (delay) prefixes here.")) ∧
    (∀ v : ℚ, 0 ≤ v → v ≤ 1 →
      (apply_cycle_note_properties note_events
          [CycleTarget.Named "v" (some v)]).1 =
        setOnPopulated note_events (fun n => { n with volume := v })) ∧
    (∀ v : ℚ, -1 ≤ v → v ≤ 1 →
      (apply_cycle_note_properties note_events
          [CycleTarget.Named "p" (some v)]).1 =
        setOnPopulated note_events (fun n => { n with panning := v })) ∧
    (∀ v : ℚ, 0 ≤ v → v < 1 →
      (apply_cycle_note_properties note_events
          [CycleTarget.Named "d" (some v)]).1 =
        setOnPopulated note_events (fun n => { n with delay := v })) ∧
    (∀ i : Int, 0 ≤ i →
      (apply_cycle_note_properties note_events [CycleTarget.Index i]).1 =
        setOnPopulated note_events
          (fun n => { n with instrument := some i.toNat })) ∧
    (∀ v₁ v₂ : ℚ, 0 ≤ v₁ → v₁ ≤ 1 → 0 ≤ v₂ → v₂ ≤ 1 →
      (apply_cycle_note_properties note_events
          [CycleTarget.Named "v" (some v₁),
           CycleTarget.Named "v" (some v₂)]).1 =
        setOnPopulated note_events (fun n => { n with volume := v₂ })) := by
  obtain ⟨a, l, rfl⟩ : ∃ a t, note_events = a :: t := by
    cases note_events with
    | nil => exact absurd rfl hne
    | cons a t => exact ⟨a, t, rfl⟩
  refine ⟨?_, ?_, ?_, ?_, ?_, ?_, ?_, ?_, ?_, ?_, ?_⟩
  · intro v
    by_cases h0 : 0 ≤ v <;> by_cases h1 : v ≤ 1 <;>
      simp [apply_props_single, applySingleTarget, float_value_in_range,
        FloatRange.containsQ, h0, h1]
  · intro v
    by_cases h0 : -1 ≤ v <;> by_cases h1 : v ≤ 1 <;>
      simp [apply_props_single, applySingleTarget, float_value_in_range,
        FloatRange.containsQ, h0, h1]
  · intro v
    by_cases h0 : 0 ≤ v <;> by_cases h1 : v < 1 <;>
      simp [apply_props_single, applySingleTarget, float_value_in_range,
        FloatRange.containsQ, h0, h1]
  · intro i
    by_cases hi : 0 ≤ i <;>
      simp [apply_props_single, applySingleTarget, integer_value_in_range, hi]
  · intro i hi
    simp [apply_props_single, applySingleTarget, integer_value_in_range,
      not_le.mpr hi]
  · intro name val hv hp hd
    simp [apply_props_single, applySingleTarget, hv, hp, hd]
  · intro v h0 h1
    simp [apply_props_single, applySingleTarget, float_value_in_range,
      FloatRange.containsQ, h0, h1, setOnPopulated]
  · intro v h0 h1
    simp [apply_props_single, applySingleTarget, float_value_in_range,
      FloatRange.containsQ, h0, h1, setOnPopulated]
  · intro v h0 h1
    simp [apply_props_single, applySingleTarget, float_value_in_range,
      FloatRange.containsQ, h0, h1, setOnPopulated]
  · intro i hi
    simp [apply_props_single, applySingleTarget, integer_value_in_range, hi,
      setOnPopulated]
  · intro v₁ v₂ h₁0 h₁1 h₂0 h₂1
    simp only [apply_props_pair, applySingleTarget, float_value_in_range,
      FloatRange.containsQ, setOnPopulated, List.map_map]
    simp [h₁0, h₁1, h₂0, h₂1]
    refine ⟨?_, ?_⟩
    · cases a <;> rfl
    · intro x _
      cases x <;> rfl

/-- Witness for C6 on a concrete one-note stack: volume 1.0 accepted and
1.1 rejected; panning -1.0 and 1.0 accepted; delay 0.999 accepted and 1.0
rejected; instrument -1 rejected with an error naming "instrument";
property name "q" rejected listing the accepted set; applying volume 1/2
then 1/4 leaves volume 1/4. -/
theorem C6_applier_bounds_witness :
    ((apply_cycle_note_properties [new_note (Note.midi 60)]
        [CycleTarget.Named "v" (some 1)]).2 = Except.ok ()) ∧
    ((apply_cycle_note_properties [new_note (Note.midi 60)]
        [CycleTarget.Named "v" (some (11 / 10))]).2 ≠ Except.ok ()) ∧
    ((apply_cycle_note_properties [new_note (Note.midi 60)]
        [CycleTarget.Named "p" (some (-1))]).2 = Except.ok ()) ∧
    ((apply_cycle_note_properties [new_note (Note.midi 60)]
        [CycleTarget.Named "p" (some 1)]).2 = Except.ok ()) ∧
    ((apply_cycle_note_properties [new_note (Note.midi 60)]
        [CycleTarget.Named "d" (some (999 / 1000))]).2 = Except.ok ()) ∧
    ((apply_cycle_note_properties [new_note (Note.midi 60)]
        [CycleTarget.Named "d" (some 1)]).2 ≠ Except.ok ()) ∧
    ((apply_cycle_note_properties [new_note (Note.midi 60)]
        [CycleTarget.Index (-1)]).2 =
      Except.error ("instrument property must be in range [" ++
        toString (0 : Int) ++ "..] but is '" ++ toString (-1 : Int) ++ "'")) ∧
    ((apply_cycle_note_properties [new_note (Note.midi 60)]
        [CycleTarget.Named "q" (some 0)]).2 =
      Except.error ("invalid note property: '" ++ "q" ++ "'. " ++
        "expecting number values with '#' (instrument),'v' (volume), " ++
        "'p' (panning) or 'd' (delay) prefixes here.")) ∧
    ((apply_cycle_note_properties [new_note (Note.midi 60)]
        [CycleTarget.Named "v" (some (1 / 2)),
         CycleTarget.Named "v" (some (1 / 4))]).1 =
      setOnPopulated [new_note (Note.midi 60)]
        (fun n => { n with volume := 1 / 4 })) := by
  have h := C6_applier_bounds [new_note (Note.midi 60)]
    (List.cons_ne_nil _ _)
  refine ⟨(h.1 1).mpr ⟨by norm_num, by norm_num⟩, ?_,
    (h.2.1 (-1)).mpr ⟨by norm_num, by norm_num⟩,
    (h.2.1 1).mpr ⟨by norm_num, by norm_num⟩,
    (h.2.2.1 (999 / 1000)).mpr ⟨by norm_num, by norm_num⟩, ?_,
    h.2.2.2.2.1 (-1) (by norm_num),
    h.2.2.2.2.2.1 "q" (some 0) (by decide) (by decide) (by decide),
    h.2.2.2.2.2.2.2.2.2.2 (1 / 2) (1 / 4) (by norm_num) (by norm_num)
      (by norm_num) (by norm_num)⟩
  · intro hc
    have hv := (h.1 (11 / 10)).mp hc
    norm_num at hv
  · intro hc
    have hv := (h.2.2.1 1).mp hc
    norm_num at hv

/-- Running the target loop over an append: a fully successful first half
threads its updated stack into the second half. -/
theorem applyTargetsLoop_append (ts₁ : List CycleTarget)
    (ne ne' : List (Option NoteEvent)) (ts₂ : List CycleTarget)
    (h : applyTargetsLoop ne ts₁ = (ne', Except.ok ())) :
    applyTargetsLoop ne (ts₁ ++ ts₂) = applyTargetsLoop ne' ts₂ := by
  induction ts₁ generalizing ne with
  | nil =>
    simp only [applyTargetsLoop] at h
    cases h
    rfl
  | cons t ts ih =>
    simp only [applyTargetsLoop, List.cons_append] at h ⊢
    cases ht : applySingleTarget ne t with
    | ok u =>
      rw [ht] at h
      exact ih u h
    | error e =>
      rw [ht] at h
      cases h

/-- C10: the applier is not atomic on failure — when the targets before an
invalid one all succeed, the call returns the invalid target's error
together with the stack as mutated by those earlier targets; it is not
restored to its pre-call state. -/
theorem C10_applier_not_atomic (ne ne' : List (Option NoteEvent))
    (hne : ne ≠ []) (ts₁ ts₂ : List CycleTarget) (t : CycleTarget)
    (e : String)
    (h1 : applyTargetsLoop ne ts₁ = (ne', Except.ok ()))
    (h2 : applySingleTarget ne' t = Except.error e) :
    apply_cycle_note_properties ne (ts₁ ++ t :: ts₂) =
      (ne', Except.error e) := by
  obtain ⟨a, l, rfl⟩ : ∃ a l, ne = a :: l := by
    cases ne with
    | nil => exact absurd rfl hne
    | cons a l => exact ⟨a, l, rfl⟩
  have hts : (ts₁ ++ t :: ts₂).isEmpty = false := by
    cases ts₁ <;> rfl
  have happ := applyTargetsLoop_append ts₁ (a :: l) ne' (t :: ts₂) h1
  simp [apply_cycle_note_properties, hts, happ, applyTargetsLoop, h2]

/-- Witness for C10: a valid volume target mutates the stack (volume 1 to
0); the following unknown target "q" fails; the call reports the error but
keeps the mutated volume. -/
theorem C10_applier_not_atomic_witness :
    apply_cycle_note_properties [new_note (Note.midi 60)]
        ([CycleTarget.Named "v" (some 0)] ++
          CycleTarget.Named "q" none :: []) =
      ([some { instrument := none, note := Note.midi 60, volume := 0,
               panning := 0, delay := 0 }],
        Except.error ("invalid note property: '" ++ "q" ++ "'. " ++
          "expecting number values with '#' (instrument),'v' (volume), " ++
          "'p' (panning) or 'd' (delay) prefixes here.")) :=
  C10_applier_not_atomic [new_note (Note.midi 60)]
    [some { instrument := none, note := Note.midi 60, volume := 0,
            panning := 0, delay := 0 }]
    (List.cons_ne_nil _ _)
    [CycleTarget.Named "v" (some 0)] [] (CycleTarget.Named "q" none)
    ("invalid note property: '" ++ "q" ++ "'. " ++
      "expecting number values with '#' (instrument),'v' (volume), " ++
      "'p' (panning) or 'd' (delay) prefixes here.")
    rfl rfl

/-- Whether an `Except` carries an error. -/
def exceptIsError : Except String α → Bool
  | .error _ => true
  | .ok _ => false

/-- The inner generate loop panics exactly when some event of the channel
fails to map. -/
theorem processChannelEvents_panicked_iff (mappings : Mappings)
    (table : ChordTable) (ci : Nat) (events : List CycleEvent)
    (acc : CycleNoteEvents) :
    (∃ msg, processChannelEvents mappings table ci events acc =
        PanicOr.panicked msg) ↔
      ∃ ev ∈ events, exceptIsError (map_note_event mappings table ev) = true := by
  induction events generalizing acc with
  | nil => simp [processChannelEvents]
  | cons ev rest ih =>
    cases h : map_note_event mappings table ev with
    | ok ne =>
      by_cases hemp : ne.isEmpty <;>
        simp [processChannelEvents, h, hemp, ih, exceptIsError]
    | error e =>
      simp [processChannelEvents, h, exceptIsError]

/-- The outer generate loop panics exactly when some channel contains a
failing event. -/
theorem processChannels_panicked_iff (mappings : Mappings)
    (table : ChordTable) (ci : Nat) (channels : List (List CycleEvent))
    (acc : CycleNoteEvents) :
    (∃ msg, processChannels mappings table ci channels acc =
        PanicOr.panicked msg) ↔
      ∃ evs ∈ channels, ∃ ev ∈ evs,
        exceptIsError (map_note_event mappings table ev) = true := by
  induction channels generalizing ci acc with
  | nil => simp [processChannels]
  | cons evs rest ih =>
    cases h : processChannelEvents mappings table ci evs acc with
    | ok acc' =>
      have hnone : ¬ ∃ ev ∈ evs,
          exceptIsError (map_note_event mappings table ev) = true := by
        rw [← processChannelEvents_panicked_iff mappings table ci evs acc]
        intro ⟨msg, hmsg⟩
        rw [h] at hmsg
        cases hmsg
      simp [processChannels, h, ih, hnone]
    | panicked msg =>
      have hsome : ∃ ev ∈ evs,
          exceptIsError (map_note_event mappings table ev) = true := by
        rw [← processChannelEvents_panicked_iff mappings table ci evs acc]
        exact ⟨msg, h⟩
      simp [processChannels, h, hsome]

/-- C7: any error from the external generator, and any mapping, resolution
or property-range failure while processing a pass's events, aborts the
whole pass with a panic; no partial output is returned, and a pass with no
failing event completes with a full batch. -/
theorem C7_generate_fatal (mappings : Mappings) (table : ChordTable) :
    (∀ err : String,
      CycleEmitter.generate table ⟨⟨Except.error err⟩, mappings⟩ =
        PanicOr.panicked ("Cycle runtime error: " ++ err)) ∧
    (∀ channels : List (List CycleEvent),
      ((∃ msg, CycleEmitter.generate table ⟨⟨Except.ok channels⟩, mappings⟩ =
          PanicOr.panicked msg) ↔
        ∃ evs ∈ channels, ∃ ev ∈ evs,
          exceptIsError (map_note_event mappings table ev) = true) ∧
      ((¬ ∃ evs ∈ channels, ∃ ev ∈ evs,
          exceptIsError (map_note_event mappings table ev) = true) →
        ∃ items, CycleEmitter.generate table ⟨⟨Except.ok channels⟩, mappings⟩ =
          PanicOr.ok items)) := by
  refine ⟨fun err => rfl, fun channels => ⟨?_, ?_⟩⟩
  · rw [← processChannels_panicked_iff mappings table 0 channels
      CycleNoteEvents.new]
    cases h : processChannels mappings table 0 channels CycleNoteEvents.new with
    | ok acc => simp [CycleEmitter.generate, CycleGen.generate, h]
    | panicked msg => simp [CycleEmitter.generate, CycleGen.generate, h]
  · intro hnone
    rw [← processChannels_panicked_iff mappings table 0 channels
      CycleNoteEvents.new] at hnone
    cases h : processChannels mappings table 0 channels CycleNoteEvents.new with
    | ok acc =>
      exact ⟨acc.into_event_iter_items,
        by simp [CycleEmitter.generate, CycleGen.generate, h]⟩
    | panicked msg => exact absurd ⟨msg, h⟩ hnone

/-- Witness for C7: a generator error panics verbatim; a pass containing an
unknown chord mode panics; a pass with only a plain integer event
completes with a batch. -/
theorem C7_generate_fatal_witness :
    (CycleEmitter.generate (fun _ => none)
        ⟨⟨Except.error "event limit exceeded"⟩, []⟩ =
      PanicOr.panicked ("Cycle runtime error: " ++ "event limit exceeded")) ∧
    (∃ msg, CycleEmitter.generate (fun _ => none)
        ⟨⟨Except.ok [[{ string := "bogus", value := CycleValue.Chord 60 "bogus",
                        targets := [], start := 0, length := 1 }]]⟩, []⟩ =
      PanicOr.panicked msg) ∧
    (∃ items, CycleEmitter.generate (fun _ => none)
        ⟨⟨Except.ok [[{ string := "1", value := CycleValue.Integer 1,
                        targets := [], start := 0, length := 1 }]]⟩, []⟩ =
      PanicOr.ok items) := by
  have h := C7_generate_fatal [] (fun _ => none)
  refine ⟨h.1 "event limit exceeded", ?_, ?_⟩
  · exact (h.2 [[{ string := "bogus", value := CycleValue.Chord 60 "bogus",
                   targets := [], start := 0, length := 1 }]]).1.mpr
      ⟨_, List.mem_singleton.mpr rfl, _, List.mem_singleton.mpr rfl, rfl⟩
  · exact (h.2 [[{ string := "1", value := CycleValue.Integer 1,
                   targets := [], start := 0, length := 1 }]]).2
      (by decide)

/-- `Vec::resize` always produces the requested length. -/
theorem listResize_length (l : List α) (n : Nat) (x : α) :
    (listResize l n x).length = n := by
  simp [listResize]
  omega

/-- `Vec::resize` with a dominating length is pure right-padding. -/
theorem listResize_of_le (l : List α) (n : Nat) (x : α) (h : l.length ≤ n) :
    listResize l n x = l ++ List.replicate (n - l.length) x := by
  simp [listResize, List.take_of_length_le h]

/-- Default-reading a replicated list always yields the replicated value. -/
theorem replicate_getD (n : Nat) (x : α) (i : Nat) :
    (List.replicate n x).getD i x = x := by
  rcases Nat.lt_or_ge i n with h | h
  · simp [List.getD_eq_getElem?_getD, List.getElem?_replicate, h]
  · simp [List.getD_eq_getElem?_getD, List.getElem?_replicate,
      Nat.not_lt.mpr h]

/-- Default reads of the slot vector produced by the `Ok` branch of
`CycleNoteEvents::add`: the written channel holds the new value, channels
below it keep their old reads, channels above it read as absent. -/
theorem resizeSet_getD (slots : List α) (ch : Nat) (x d : α) (c : Nat) :
    ((listResize slots (ch + 1) d).set ch x).getD c d =
      if c = ch then x
      else if c < ch then slots.getD c d
      else d := by
  rcases eq_or_ne c ch with rfl | hne
  · have hlen : c < (listResize slots (c + 1) d).length := by
      rw [listResize_length]
      omega
    simp [List.getD_eq_getElem?_getD, List.getElem?_set_self hlen]
  · rw [List.getD_eq_getElem?_getD, List.getElem?_set_ne (Ne.symm hne)]
    rcases Nat.lt_or_ge c (ch + 1) with hlt | hge
    · have hc : c < ch := by omega
      rcases Nat.lt_or_ge c slots.length with hsl | hsl
      · have htake : c < (slots.take (ch + 1)).length := by
          simp [List.length_take]
          omega
        rw [listResize, List.getElem?_append_left htake]
        simp [List.getElem?_take, hlt, hne, hc, List.getD_eq_getElem?_getD]
      · have htake : (slots.take (ch + 1)).length ≤ c := by
          simp [List.length_take]
          omega
        have hslots : slots.getD c d = d := by
          simp [List.getD_eq_getElem?_getD,
            List.getElem?_eq_none_iff.mpr hsl]
        rw [listResize, List.getElem?_append_right htake,
          ← List.getD_eq_getElem?_getD, replicate_getD]
        simp only [if_neg hne, if_pos hc]
        exact hslots.symm
    · have hlen : (listResize slots (ch + 1) d).length ≤ c := by
        rw [listResize_length]
        omega
      have hnc : ¬ c < ch := by omega
      rw [List.getElem?_eq_none_iff.mpr hlen]
      simp [hne, hnc]

/-- Default reads of the fresh slot vector created by the `Err` branch of
`CycleNoteEvents::add`. -/
theorem replicateSet_getD (ch : Nat) (x d : α) (c : Nat) :
    ((List.replicate (ch + 1) d).set ch x).getD c d =
      if c = ch then x else d := by
  have h := resizeSet_getD ([] : List α) ch x d c
  simp only [listResize, List.take_nil, List.length_nil, Nat.sub_zero,
    List.nil_append] at h
  rw [h]
  rcases eq_or_ne c ch with rfl | hne
  · simp
  · simp [hne]

/-- A start time occurs in the updated accumulator list iff it is the added
start or was already present. -/
theorem mem_keys_addToEvents
    (events : List (Fraction × Fraction × List (Option Event)))
    (c : Nat) (t l : Fraction) (ne : List (Option NoteEvent)) (x : Fraction) :
    x ∈ (addToEvents events c t l ne).map (·.1) ↔
      x = t ∨ x ∈ events.map (·.1) := by
  induction events with
  | nil => simp [addToEvents]
  | cons e rest ih =>
    obtain ⟨time, len, slots⟩ := e
    by_cases hlt : t < time
    · simp [addToEvents, hlt]
    · by_cases heq : t = time
      · subst heq
        simp [addToEvents, hlt]
      · simp [addToEvents, hlt, heq, ih]
        tauto

/-- `CycleNoteEvents::add` keeps the accumulator's start times strictly
sorted. -/
theorem addToEvents_sorted
    (events : List (Fraction × Fraction × List (Option Event)))
    (c : Nat) (t l : Fraction) (ne : List (Option NoteEvent))
    (h : List.Sorted (· < ·) (events.map (·.1))) :
    List.Sorted (· < ·) ((addToEvents events c t l ne).map (·.1)) := by
  induction events with
  | nil => simp [addToEvents]
  | cons e rest ih =>
    obtain ⟨time, len, slots⟩ := e
    rw [List.map_cons, List.sorted_cons] at h
    obtain ⟨hhead, htail⟩ := h
    by_cases hlt : t < time
    · simp only [addToEvents, if_pos hlt, List.map_cons, List.sorted_cons]
      refine ⟨?_, ?_⟩
      · intro b hb
        simp only [List.mem_cons] at hb
        rcases hb with rfl | hb
        · exact hlt
        · exact lt_trans hlt (hhead b hb)
      · exact ⟨hhead, htail⟩
    · by_cases heq : t = time
      · subst heq
        have hunf : addToEvents ((t, len, slots) :: rest) c t l ne =
            (t, min len l, (listResize slots (c + 1) none).set c
              (some (Event.NoteEvents ne))) :: rest := by
          simp [addToEvents]
        rw [hunf, List.map_cons, List.sorted_cons]
        exact ⟨hhead, htail⟩
      · have hgt : time < t := by
          rcases lt_trichotomy t time with h | h | h
          · exact absurd h hlt
          · exact absurd h heq
          · exact h
        simp only [addToEvents, if_neg hlt, if_neg heq, List.map_cons,
          List.sorted_cons]
        refine ⟨?_, ih htail⟩
        intro b hb
        rw [mem_keys_addToEvents] at hb
        rcases hb with rfl | hb
        · exact hgt
        · exact hhead b hb

/-- On a sorted accumulator, adding at an already-stored start rewrites
exactly that entry: length shrunk by `min`, slot vector resized to
`channel + 1` and overwritten at `channel`. -/
theorem find?_addToEvents_self_mem
    (events : List (Fraction × Fraction × List (Option Event)))
    (c : Nat) (t l : Fraction) (ne : List (Option NoteEvent))
    (hs : List.Sorted (· < ·) (events.map (·.1)))
    (hmem : t ∈ events.map (·.1)) :
    (addToEvents events c t l ne).find? (fun e => e.1 = t) =
      (events.find? (fun e => e.1 = t)).map
        (fun e => (e.1, min e.2.1 l,
          (listResize e.2.2 (c + 1) none).set c
            (some (Event.NoteEvents ne)))) := by
  induction events with
  | nil => simp at hmem
  | cons e rest ih =>
    obtain ⟨time, len, slots⟩ := e
    rw [List.map_cons, List.sorted_cons] at hs
    obtain ⟨hhead, htail⟩ := hs
    simp only [List.map_cons, List.mem_cons] at hmem
    by_cases hlt : t < time
    · exfalso
      rcases hmem with heq | hmem
      · exact absurd heq (ne_of_lt hlt)
      · exact absurd (hhead t hmem) (lt_asymm hlt)
    · by_cases heq : t = time
      · subst heq
        have hunf : addToEvents ((t, len, slots) :: rest) c t l ne =
            (t, min len l, (listResize slots (c + 1) none).set c
              (some (Event.NoteEvents ne))) :: rest := by
          simp [addToEvents]
        rw [hunf]
        rw [List.find?_cons_of_pos _ (by simp),
          List.find?_cons_of_pos _ (by simp)]
        rfl
      · have hmem' : t ∈ rest.map (·.1) := by
          rcases hmem with h | h
          · exact absurd h heq
          · exact h
        simp only [addToEvents, if_neg hlt, if_neg heq]
        rw [List.find?_cons_of_neg _ (by simp [Ne.symm heq]),
          List.find?_cons_of_neg _ (by simp [Ne.symm heq])]
        exact ih htail hmem'

/-- On a sorted accumulator, adding at a fresh start inserts a new entry
carrying the given length and a fresh slot vector. -/
theorem find?_addToEvents_self_new
    (events : List (Fraction × Fraction × List (Option Event)))
    (c : Nat) (t l : Fraction) (ne : List (Option NoteEvent))
    (hs : List.Sorted (· < ·) (events.map (·.1)))
    (hmem : t ∉ events.map (·.1)) :
    (addToEvents events c t l ne).find? (fun e => e.1 = t) =
      some (t, l, (List.replicate (c + 1) none).set c
        (some (Event.NoteEvents ne))) := by
  induction events with
  | nil => simp [addToEvents, List.find?]
  | cons e rest ih =>
    obtain ⟨time, len, slots⟩ := e
    rw [List.map_cons, List.sorted_cons] at hs
    obtain ⟨hhead, htail⟩ := hs
    simp only [List.map_cons, List.mem_cons] at hmem
    push_neg at hmem
    obtain ⟨hne, hmem⟩ := hmem
    by_cases hlt : t < time
    · simp only [addToEvents, if_pos hlt]
      rw [List.find?_cons_of_pos _ (by simp)]
    · by_cases heq : t = time
      · exact absurd heq hne
      · simp only [addToEvents, if_neg hlt, if_neg heq]
        rw [List.find?_cons_of_neg _ (by simp [Ne.symm heq])]
        exact ih htail hmem

/-- Adding at one start never touches the entry stored at another start. -/
theorem find?_addToEvents_other
    (events : List (Fraction × Fraction × List (Option Event)))
    (c : Nat) (t l : Fraction) (ne : List (Option NoteEvent))
    (x : Fraction) (hx : x ≠ t) :
    (addToEvents events c t l ne).find? (fun e => e.1 = x) =
      events.find? (fun e => e.1 = x) := by
  induction events with
  | nil => simp [addToEvents, List.find?, Ne.symm hx]
  | cons e rest ih =>
    obtain ⟨time, len, slots⟩ := e
    by_cases hlt : t < time
    · simp only [addToEvents, if_pos hlt]
      rw [List.find?_cons_of_neg _ (by simp [Ne.symm hx])]
    · by_cases heq : t = time
      · subst heq
        have hunf : addToEvents ((t, len, slots) :: rest) c t l ne =
            (t, min len l, (listResize slots (c + 1) none).set c
              (some (Event.NoteEvents ne))) :: rest := by
          simp [addToEvents]
        rw [hunf]
        rw [List.find?_cons_of_neg _ (by simp [Ne.symm hx]),
          List.find?_cons_of_neg _ (by simp [Ne.symm hx])]
      · simp only [addToEvents, if_neg hlt, if_neg heq]
        by_cases hxt : time = x
        · subst hxt
          rw [List.find?_cons_of_pos _ (by simp),
            List.find?_cons_of_pos _ (by simp)]
        · rw [List.find?_cons_of_neg _ (by simp [hxt]),
            List.find?_cons_of_neg _ (by simp [hxt])]
          exact ih

/-- `add` leaves the events component as `addToEvents`. -/
theorem add_events (s : CycleNoteEvents) (c : Nat) (t l : Fraction)
    (ne : List (Option NoteEvent)) :
    (s.add c t l ne).events = addToEvents s.events c t l ne := rfl

/-- `add` preserves strict sortedness of the stored start times. -/
theorem sorted_add (s : CycleNoteEvents) (c : Nat) (t l : Fraction)
    (ne : List (Option NoteEvent))
    (hs : List.Sorted (· < ·) (startsOf s)) :
    List.Sorted (· < ·) (startsOf (s.add c t l ne)) :=
  addToEvents_sorted s.events c t l ne hs

/-- Adding at an already-stored start leaves the start-time list unchanged. -/
theorem keys_addToEvents_mem_eq
    (events : List (Fraction × Fraction × List (Option Event)))
    (c : Nat) (t l : Fraction) (ne : List (Option NoteEvent))
    (hs : List.Sorted (· < ·) (events.map (·.1)))
    (hmem : t ∈ events.map (·.1)) :
    (addToEvents events c t l ne).map (·.1) = events.map (·.1) := by
  induction events with
  | nil => simp at hmem
  | cons e rest ih =>
    obtain ⟨time, len, slots⟩ := e
    rw [List.map_cons, List.sorted_cons] at hs
    obtain ⟨hhead, htail⟩ := hs
    simp only [List.map_cons, List.mem_cons] at hmem
    by_cases hlt : t < time
    · exfalso
      rcases hmem with heq | hmem
      · exact absurd heq (ne_of_lt hlt)
      · exact absurd (hhead t hmem) (lt_asymm hlt)
    · by_cases heq : t = time
      · subst heq
        have hunf : addToEvents ((t, len, slots) :: rest) c t l ne =
            (t, min len l, (listResize slots (c + 1) none).set c
              (some (Event.NoteEvents ne))) :: rest := by
          simp [addToEvents]
        rw [hunf]
        simp
      · have hmem' : t ∈ rest.map (·.1) := by
          rcases hmem with h | h
          · exact absurd h heq
          · exact h
        simp only [addToEvents, if_neg hlt, if_neg heq, List.map_cons]
        rw [ih htail hmem']

/-- `add` at a stored start keeps the start-time list unchanged. -/
theorem startsOf_add_mem (s : CycleNoteEvents) (c : Nat) (t l : Fraction)
    (ne : List (Option NoteEvent))
    (hs : List.Sorted (· < ·) (startsOf s)) (hmem : t ∈ startsOf s) :
    startsOf (s.add c t l ne) = startsOf s :=
  keys_addToEvents_mem_eq s.events c t l ne hs hmem

/-- `add` at a stored start shrinks the stored length to the minimum. -/
theorem storedLength_add_mem (s : CycleNoteEvents) (c : Nat)
    (t l : Fraction) (ne : List (Option NoteEvent))
    (hs : List.Sorted (· < ·) (startsOf s)) (hmem : t ∈ startsOf s) :
    storedLength (s.add c t l ne) t =
      (storedLength s t).map (fun m => min m l) := by
  unfold storedLength findSlot
  rw [add_events, find?_addToEvents_self_mem s.events c t l ne hs hmem]
  cases s.events.find? (fun e => e.1 = t) <;> rfl

/-- `add` at a fresh start stores the submitted length. -/
theorem storedLength_add_new (s : CycleNoteEvents) (c : Nat)
    (t l : Fraction) (ne : List (Option NoteEvent))
    (hs : List.Sorted (· < ·) (startsOf s)) (hmem : t ∉ startsOf s) :
    storedLength (s.add c t l ne) t = some l := by
  unfold storedLength findSlot
  rw [add_events, find?_addToEvents_self_new s.events c t l ne hs hmem]
  rfl

/-- `add` never changes the length stored at a different start. -/
theorem storedLength_add_other (s : CycleNoteEvents) (c : Nat)
    (t l : Fraction) (ne : List (Option NoteEvent)) (x : Fraction)
    (hx : x ≠ t) :
    storedLength (s.add c t l ne) x = storedLength s x := by
  unfold storedLength findSlot
  rw [add_events, find?_addToEvents_other s.events c t l ne x hx]

/-- After `add`, the added channel's entry at the added start is exactly
the submitted stack (start already present). -/
theorem storedEntry_add_self_mem (s : CycleNoteEvents) (c : Nat)
    (t l : Fraction) (ne : List (Option NoteEvent))
    (hs : List.Sorted (· < ·) (startsOf s)) (hmem : t ∈ startsOf s) :
    storedEntry (s.add c t l ne) t c = some (Event.NoteEvents ne) := by
  unfold storedEntry findSlot
  rw [add_events, find?_addToEvents_self_mem s.events c t l ne hs hmem]
  have hsome : (s.events.find? (fun e => e.1 = t)).isSome := by
    rw [List.find?_isSome]
    obtain ⟨e, hmem', heq⟩ := List.mem_map.mp hmem
    exact ⟨e, hmem', by simpa using heq⟩
  obtain ⟨e, he⟩ := Option.isSome_iff_exists.mp hsome
  rw [he]
  have hg := resizeSet_getD e.2.2 c (some (Event.NoteEvents ne))
    (none : Option Event) c
  rw [if_pos rfl] at hg
  simp only [List.getD_eq_getElem?_getD] at hg
  simp [hg]

/-- After `add`, the added channel's entry at the added start is exactly
the submitted stack (start fresh). -/
theorem storedEntry_add_self_new (s : CycleNoteEvents) (c : Nat)
    (t l : Fraction) (ne : List (Option NoteEvent))
    (hs : List.Sorted (· < ·) (startsOf s)) (hmem : t ∉ startsOf s) :
    storedEntry (s.add c t l ne) t c = some (Event.NoteEvents ne) := by
  unfold storedEntry findSlot
  rw [add_events, find?_addToEvents_self_new s.events c t l ne hs hmem]
  have hg := replicateSet_getD c (some (Event.NoteEvents ne))
    (none : Option Event) c
  rw [if_pos rfl] at hg
  simp only [List.getD_eq_getElem?_getD] at hg
  simp [hg]

/-- After `add`, entries of channels below the added one are unchanged at
the added start. -/
theorem storedEntry_add_below (s : CycleNoteEvents) (c : Nat)
    (t l : Fraction) (ne : List (Option NoteEvent)) (c' : Nat)
    (hc : c' < c)
    (hs : List.Sorted (· < ·) (startsOf s)) (hmem : t ∈ startsOf s) :
    storedEntry (s.add c t l ne) t c' = storedEntry s t c' := by
  unfold storedEntry findSlot
  rw [add_events, find?_addToEvents_self_mem s.events c t l ne hs hmem]
  cases s.events.find? (fun e => e.1 = t) with
  | none => rfl
  | some e =>
    have hg := resizeSet_getD e.2.2 c (some (Event.NoteEvents ne))
      (none : Option Event) c'
    rw [if_neg (Nat.ne_of_lt hc), if_pos hc] at hg
    simp only [List.getD_eq_getElem?_getD] at hg
    simp [hg]

/-- After `add`, entries of channels above the added one are dropped at the
added start (the slot vector is truncated to `channel + 1`). -/
theorem storedEntry_add_above (s : CycleNoteEvents) (c : Nat)
    (t l : Fraction) (ne : List (Option NoteEvent)) (c' : Nat)
    (hc : c < c')
    (hs : List.Sorted (· < ·) (startsOf s)) (hmem : t ∈ startsOf s) :
    storedEntry (s.add c t l ne) t c' = none := by
  unfold storedEntry findSlot
  rw [add_events, find?_addToEvents_self_mem s.events c t l ne hs hmem]
  cases s.events.find? (fun e => e.1 = t) with
  | none => rfl
  | some e =>
    have hg := resizeSet_getD e.2.2 c (some (Event.NoteEvents ne))
      (none : Option Event) c'
    rw [if_neg (Nat.ne_of_gt hc), if_neg (Nat.lt_asymm hc)] at hg
    simp only [List.getD_eq_getElem?_getD] at hg
    simp [hg]

/-- C2 counterexample: with channel 1's stack stored at start 0, a second
`add` for channel 0 at the same start erases channel 1's entry — the `Ok`
branch resizes the slot vector down to `channel + 1 = 1` entries before
overwriting, so the claim that every other channel's entry is unchanged
fails. -/
theorem C2_add_counterexample :
    storedEntry (CycleNoteEvents.new.add 1 0 1 [new_note (Note.midi 60)])
        0 1 = some (Event.NoteEvents [new_note (Note.midi 60)]) ∧
      storedEntry ((CycleNoteEvents.new.add 1 0 1
          [new_note (Note.midi 60)]).add 0 0 1 [new_note (Note.midi 62)])
        0 1 = none := by
  constructor
  · rfl
  · rfl

/-- C2 amended: adding at an already-stored start overwrites exactly the
added channel's entry and shrinks the stored length to the minimum;
entries of channels below the added channel are unchanged, while entries
of channels above the added channel are dropped by the slot resize. -/
theorem C2_add_frame_amended (s : CycleNoteEvents) (channel : Nat)
    (start length : Fraction) (ne : List (Option NoteEvent))
    (hs : List.Sorted (· < ·) (startsOf s)) (hmem : start ∈ startsOf s) :
    (∀ c, c < channel →
      storedEntry (s.add channel start length ne) start c =
        storedEntry s start c) ∧
    storedEntry (s.add channel start length ne) start channel =
      some (Event.NoteEvents ne) ∧
    (∀ c, channel < c →
      storedEntry (s.add channel start length ne) start c = none) ∧
    storedLength (s.add channel start length ne) start =
      (storedLength s start).map (fun m => min m length) :=
  ⟨fun c hc => storedEntry_add_below s channel start length ne c hc hs hmem,
   storedEntry_add_self_mem s channel start length ne hs hmem,
   fun c hc => storedEntry_add_above s channel start length ne c hc hs hmem,
   storedLength_add_mem s channel start length ne hs hmem⟩

/-- Witness for C2's amended statement: channels 0 and 2 stored at start 0,
then channel 1 added there with a longer length — channel 0 survives,
channel 1 is overwritten, channel 2 is dropped, the length stays the
minimum. -/
theorem C2_add_frame_amended_witness :
    (storedEntry (((CycleNoteEvents.new.add 0 0 1
          [new_note (Note.midi 60)]).add 2 0 1
          [new_note (Note.midi 64)]).add 1 0 2 [new_note (Note.midi 67)])
        0 0 =
      storedEntry ((CycleNoteEvents.new.add 0 0 1
          [new_note (Note.midi 60)]).add 2 0 1
          [new_note (Note.midi 64)]) 0 0) ∧
    (storedEntry (((CycleNoteEvents.new.add 0 0 1
          [new_note (Note.midi 60)]).add 2 0 1
          [new_note (Note.midi 64)]).add 1 0 2 [new_note (Note.midi 67)])
        0 1 = some (Event.NoteEvents [new_note (Note.midi 67)])) ∧
    (storedEntry (((CycleNoteEvents.new.add 0 0 1
          [new_note (Note.midi 60)]).add 2 0 1
          [new_note (Note.midi 64)]).add 1 0 2 [new_note (Note.midi 67)])
        0 2 = none) ∧
    (storedLength (((CycleNoteEvents.new.add 0 0 1
          [new_note (Note.midi 60)]).add 2 0 1
          [new_note (Note.midi 64)]).add 1 0 2 [new_note (Note.midi 67)])
        0 =
      (storedLength ((CycleNoteEvents.new.add 0 0 1
          [new_note (Note.midi 60)]).add 2 0 1
          [new_note (Note.midi 64)]) 0).map (fun m => min m 2)) := by
  have h := C2_add_frame_amended
    ((CycleNoteEvents.new.add 0 0 1 [new_note (Note.midi 60)]).add 2 0 1
      [new_note (Note.midi 64)])
    1 0 2 [new_note (Note.midi 67)]
    (by decide) (by decide)
  exact ⟨h.1 0 (by decide), h.2.1, h.2.2.1 2 (by decide), h.2.2.2⟩

/-- One `add` call of a generation pass, as issued by `generate`. -/
structure AddOp where
  channel : Nat
  start : Fraction
  length : Fraction
  notes : List (Option NoteEvent)
deriving DecidableEq, Repr

/-- Replaying a sequence of `add` calls onto an accumulator state. -/
def applyAddsFrom (s : CycleNoteEvents) (ops : List AddOp) :
    CycleNoteEvents :=
  ops.foldl (fun acc op => acc.add op.channel op.start op.length op.notes) s

/-- Replaying a pass's `add` calls from the fresh accumulator. -/
def applyAdds (ops : List AddOp) : CycleNoteEvents :=
  applyAddsFrom CycleNoteEvents.new ops

/-- All lengths submitted at a given start during a pass, in order. -/
def lengthsAt (ops : List AddOp) (t : Fraction) : List Fraction :=
  ops.filterMap (fun op => if op.start = t then some op.length else none)

/-- Folding the minimum of newly-submitted lengths into an optional
previously-stored length. -/
def mergeMin : Option Fraction → List Fraction → Option Fraction
  | acc, [] => acc
  | none, l :: ls => mergeMin (some l) ls
  | some m, l :: ls => mergeMin (some (min m l)) ls

/-- `mergeMin` starting from a stored value is a plain fold of `min`. -/
theorem mergeMin_some (m : Fraction) (ls : List Fraction) :
    mergeMin (some m) ls = some (ls.foldl min m) := by
  induction ls generalizing m with
  | nil => rfl
  | cons l ls ih => simp [mergeMin, ih]

/-- `mergeMin` from nothing computes the list minimum. -/
theorem mergeMin_none (ls : List Fraction) :
    mergeMin none ls = ls.min? := by
  cases ls with
  | nil => rfl
  | cons l ls => rw [mergeMin, mergeMin_some]; rfl

/-- `mergeMin` with no new lengths keeps the stored value. -/
theorem mergeMin_nil (acc : Option Fraction) : mergeMin acc [] = acc := by
  cases acc <;> rfl

/-- A length is stored at `t` exactly when `t` is a stored start. -/
theorem storedLength_isSome_iff (s : CycleNoteEvents) (t : Fraction) :
    (storedLength s t).isSome ↔ t ∈ startsOf s := by
  have hmap : (storedLength s t).isSome = (findSlot s t).isSome := by
    unfold storedLength
    cases findSlot s t <;> rfl
  rw [hmap]
  unfold findSlot startsOf
  rw [List.find?_isSome]
  constructor
  · intro ⟨e, hmem, hp⟩
    exact List.mem_map.mpr ⟨e, hmem, by simpa using hp⟩
  · intro h
    obtain ⟨e, hmem, heq⟩ := List.mem_map.mp h
    exact ⟨e, hmem, by simpa using heq⟩

/-- Replaying preserves sortedness of the start list. -/
theorem applyAddsFrom_sorted (ops : List AddOp) (s : CycleNoteEvents)
    (hs : List.Sorted (· < ·) (startsOf s)) :
    List.Sorted (· < ·) (startsOf (applyAddsFrom s ops)) := by
  induction ops generalizing s with
  | nil => exact hs
  | cons op rest ih =>
    exact ih _ (sorted_add s op.channel op.start op.length op.notes hs)

/-- The stored length after replaying a pass merges the previously stored
length with the minimum of the lengths submitted during the pass. -/
theorem storedLength_applyAddsFrom (ops : List AddOp) (s : CycleNoteEvents)
    (t : Fraction) (hs : List.Sorted (· < ·) (startsOf s)) :
    storedLength (applyAddsFrom s ops) t =
      mergeMin (storedLength s t) (lengthsAt ops t) := by
  induction ops generalizing s with
  | nil => rw [show lengthsAt [] t = [] from rfl, mergeMin_nil]; rfl
  | cons op rest ih =>
    have hstep : applyAddsFrom s (op :: rest) =
        applyAddsFrom (s.add op.channel op.start op.length op.notes) rest :=
      rfl
    rw [hstep, ih _ (sorted_add s op.channel op.start op.length op.notes hs)]
    by_cases hst : op.start = t
    · subst hst
      have hlens : lengthsAt (op :: rest) op.start =
          op.length :: lengthsAt rest op.start := by
        simp [lengthsAt]
      rw [hlens]
      by_cases hmem : op.start ∈ startsOf s
      · obtain ⟨m, hm⟩ := Option.isSome_iff_exists.mp
          ((storedLength_isSome_iff s op.start).mpr hmem)
        rw [storedLength_add_mem s op.channel op.start op.length op.notes
          hs hmem, hm]
        rfl
      · have hnone : storedLength s op.start = none := by
          rcases h : storedLength s op.start with _ | m
          · rfl
          · exact absurd ((storedLength_isSome_iff s op.start).mp
              (by rw [h]; rfl)) hmem
        rw [storedLength_add_new s op.channel op.start op.length op.notes
          hs hmem, hnone]
        rfl
    · have hlens : lengthsAt (op :: rest) t = lengthsAt rest t := by
        simp [lengthsAt, hst]
      rw [hlens, storedLength_add_other s op.channel op.start op.length
        op.notes t (Ne.symm hst)]

/-- Flattening emits one composite event per stored instant, in storage
order, carrying the instant's start. -/
theorem flatten_starts (s : CycleNoteEvents) :
    s.into_event_iter_items.map EmitterEvent.start = startsOf s := by
  unfold CycleNoteEvents.into_event_iter_items startsOf
  rw [List.map_map]
  rfl

/-- C3: after any sequence of `add` calls in one pass the accumulator's
starts are strictly sorted ascending (hence at most one entry per distinct
start), flattening preserves that order, a second add for the same channel
and start overwrites in place (the start list is unchanged and the
channel's entry is the last submitted stack), and the stored length at a
start is the minimum of all lengths ever submitted there. -/
theorem C3_accumulator_invariants (ops : List AddOp) :
    List.Sorted (· < ·) (startsOf (applyAdds ops)) ∧
    (startsOf (applyAdds ops)).Nodup ∧
    (applyAdds ops).into_event_iter_items.map EmitterEvent.start =
      startsOf (applyAdds ops) ∧
    (∀ t : Fraction,
      storedLength (applyAdds ops) t = (lengthsAt ops t).min?) ∧
    (∀ (c : Nat) (t l : Fraction) (ne : List (Option NoteEvent)),
      t ∈ startsOf (applyAdds ops) →
      startsOf ((applyAdds ops).add c t l ne) = startsOf (applyAdds ops) ∧
      storedEntry ((applyAdds ops).add c t l ne) t c =
        some (Event.NoteEvents ne)) := by
  have hnew : List.Sorted (· < ·) (startsOf CycleNoteEvents.new) := by
    simp [startsOf, CycleNoteEvents.new]
  have hs : List.Sorted (· < ·) (startsOf (applyAdds ops)) :=
    applyAddsFrom_sorted ops CycleNoteEvents.new hnew
  refine ⟨hs, hs.nodup, flatten_starts _, ?_, ?_⟩
  · intro t
    rw [show applyAdds ops = applyAddsFrom CycleNoteEvents.new ops from rfl,
      storedLength_applyAddsFrom ops CycleNoteEvents.new t hnew,
      show storedLength CycleNoteEvents.new t = none from rfl,
      mergeMin_none]
  · intro c t l ne hmem
    exact ⟨startsOf_add_mem _ c t l ne hs hmem,
      storedEntry_add_self_mem _ c t l ne hs hmem⟩

/-- Witness for C3 on a concrete pass: two starts 0 and 1, lengths 1 then
2 submitted at start 0 (minimum 1 stored); re-adding channel 1 at stored
start 1 overwrites without growing the start list. -/
theorem C3_accumulator_invariants_witness :
    List.Sorted (· < ·) (startsOf (applyAdds
      [⟨0, 0, 1, [new_note (Note.midi 60)]⟩,
       ⟨1, 1, 1, [new_note (Note.midi 62)]⟩,
       ⟨1, 0, 2, [new_note (Note.midi 64)]⟩])) ∧
    (storedLength (applyAdds
        [⟨0, 0, 1, [new_note (Note.midi 60)]⟩,
         ⟨1, 1, 1, [new_note (Note.midi 62)]⟩,
         ⟨1, 0, 2, [new_note (Note.midi 64)]⟩]) 0 =
      (lengthsAt
        [⟨0, 0, 1, [new_note (Note.midi 60)]⟩,
         ⟨1, 1, 1, [new_note (Note.midi 62)]⟩,
         ⟨1, 0, 2, [new_note (Note.midi 64)]⟩] 0).min?) ∧
    (startsOf ((applyAdds
        [⟨0, 0, 1, [new_note (Note.midi 60)]⟩,
         ⟨1, 1, 1, [new_note (Note.midi 62)]⟩,
         ⟨1, 0, 2, [new_note (Note.midi 64)]⟩]).add 1 1 5
          [new_note (Note.midi 65)]) =
      startsOf (applyAdds
        [⟨0, 0, 1, [new_note (Note.midi 60)]⟩,
         ⟨1, 1, 1, [new_note (Note.midi 62)]⟩,
         ⟨1, 0, 2, [new_note (Note.midi 64)]⟩])) ∧
    (storedEntry ((applyAdds
        [⟨0, 0, 1, [new_note (Note.midi 60)]⟩,
         ⟨1, 1, 1, [new_note (Note.midi 62)]⟩,
         ⟨1, 0, 2, [new_note (Note.midi 64)]⟩]).add 1 1 5
          [new_note (Note.midi 65)]) 1 1 =
      some (Event.NoteEvents [new_note (Note.midi 65)])) := by
  have h := C3_accumulator_invariants
    [⟨0, 0, 1, [new_note (Note.midi 60)]⟩,
     ⟨1, 1, 1, [new_note (Note.midi 62)]⟩,
     ⟨1, 0, 2, [new_note (Note.midi 64)]⟩]
  have hover := h.2.2.2.2 1 1 5 [new_note (Note.midi 65)] (by decide)
  exact ⟨h.1, h.2.2.2.1 0, hover.1, hover.2⟩

/-- The note stack carried by a composite event. -/
def EmitterEvent.noteStack (e : EmitterEvent) : List (Option NoteEvent) :=
  match e.event with
  | .NoteEvents notes => notes

/-- One channel's contribution to a flattened instant: the padded stack
when the channel fired there, an all-`None` stack of its max width when it
did not (empty when its max width is zero). -/
def channelContent (counts : List Nat) (c : Nat) (ev : Option Event) :
    List (Option NoteEvent) :=
  match ev with
  | some (Event.NoteEvents ne) =>
    listResize ne (counts.getD c 0) (new_note Note.off)
  | none => List.replicate (counts.getD c 0) none

/-- Sum of the channels' max widths over a consecutive channel range. -/
def widthSumFrom (counts : List Nat) (k n : Nat) : Nat :=
  ((List.range' k n).map (fun c => counts.getD c 0)).sum

/-- Each channel contributes exactly its max width to a flattened instant. -/
theorem channelContent_length (counts : List Nat) (c : Nat)
    (ev : Option Event) :
    (channelContent counts c ev).length = counts.getD c 0 := by
  cases ev with
  | none => simp [channelContent]
  | some e =>
    cases e with
    | NoteEvents ne => simp [channelContent, listResize_length]

/-- The padding-then-merge loop of `into_event_iter_items` equals the
concatenation of the per-channel contributions. -/
theorem merge_pad_enumFrom (counts : List Nat) (slots : List (Option Event))
    (k : Nat) :
    mergeChannelEvents ((List.enumFrom k slots).map
        (fun ce => padChannelEvent counts ce.1 ce.2)) =
      ((List.enumFrom k slots).map
        (fun ce => channelContent counts ce.1 ce.2)).flatten := by
  induction slots generalizing k with
  | nil => rfl
  | cons ev rest ih =>
    have ih' := ih (k + 1)
    simp only [padChannelEvent, channelContent] at ih'
    cases ev with
    | some e =>
      cases e with
      | NoteEvents ne =>
        simp only [List.enumFrom, List.map_cons, List.flatten_cons,
          padChannelEvent, channelContent, mergeChannelEvents]
        rw [ih']
    | none =>
      by_cases h : counts.getD k 0 > 0
      · simp only [List.enumFrom, List.map_cons, List.flatten_cons,
          padChannelEvent, channelContent, if_pos h, mergeChannelEvents]
        rw [ih']
      · have hz : counts.getD k 0 = 0 := by omega
        simp only [List.enumFrom, List.map_cons, List.flatten_cons,
          padChannelEvent, channelContent, if_neg h, mergeChannelEvents,
          hz, List.replicate_zero, List.nil_append]
        rw [ih']

/-- The merged stack's width is the sum of max widths of the channels
present in the instant's slot vector. -/
theorem flatten_content_length (counts : List Nat)
    (slots : List (Option Event)) (k : Nat) :
    (((List.enumFrom k slots).map
        (fun ce => channelContent counts ce.1 ce.2)).flatten).length =
      widthSumFrom counts k slots.length := by
  induction slots generalizing k with
  | nil => rfl
  | cons ev rest ih =>
    simp only [List.enumFrom, List.map_cons, List.flatten_cons,
      List.length_append, channelContent_length, List.length_cons]
    rw [ih]
    simp [widthSumFrom, List.range'_succ]

/-- Extracting one channel's sub-range from the merged stack recovers that
channel's contribution. -/
theorem flatten_content_extract (counts : List Nat)
    (slots : List (Option Event)) (k c : Nat) (hc : c < slots.length) :
    ((((List.enumFrom k slots).map
          (fun ce => channelContent counts ce.1 ce.2)).flatten).drop
        (widthSumFrom counts k c)).take (counts.getD (k + c) 0) =
      channelContent counts (k + c) (slots.getD c none) := by
  induction slots generalizing k c with
  | nil => simp at hc
  | cons ev rest ih =>
    cases c with
    | zero =>
      simp only [widthSumFrom, List.range', List.map_nil, List.sum_nil,
        List.drop_zero, List.enumFrom, List.map_cons, List.flatten_cons,
        Nat.add_zero, List.getD_cons_zero]
      exact List.take_left' (channelContent_length counts k ev)
    | succ c =>
      have hc' : c < rest.length := by
        simp at hc
        omega
      have hw : widthSumFrom counts k (c + 1) =
          (channelContent counts k ev).length + widthSumFrom counts (k + 1) c := by
        rw [channelContent_length]
        simp [widthSumFrom, List.range'_succ]
      simp only [List.enumFrom, List.map_cons, List.flatten_cons]
      rw [hw, List.drop_append]
      have hk : k + (c + 1) = (k + 1) + c := by omega
      rw [hk, List.getD_cons_succ]
      exact ih (k + 1) c hc'

/-- Padding a list with its own default value changes no default read. -/
theorem listResize_pad_getD (l : List α) (n : Nat) (d : α) (i : Nat)
    (h : l.length ≤ n) :
    (listResize l n d).getD i d = l.getD i d := by
  rw [listResize_of_le l n d h]
  rcases Nat.lt_or_ge i l.length with hi | hi
  · simp [List.getD_eq_getElem?_getD, List.getElem?_append_left hi]
  · rw [List.getD_eq_getElem?_getD, List.getElem?_append_right hi,
      ← List.getD_eq_getElem?_getD, replicate_getD,
      List.getD_eq_getElem?_getD, List.getElem?_eq_none_iff.mpr hi]
    rfl

/-- `add` never shrinks any channel's recorded max width. -/
theorem counts_add_mono (s : CycleNoteEvents) (ch : Nat) (t l : Fraction)
    (ne : List (Option NoteEvent)) (c : Nat) :
    s.event_counts.getD c 0 ≤ (s.add ch t l ne).event_counts.getD c 0 := by
  unfold CycleNoteEvents.add
  simp only
  set counts₁ :=
    if s.event_counts.length ≤ ch then
      listResize s.event_counts (ch + 1) 0
    else s.event_counts with hc₁
  have hbase : counts₁.getD c 0 = s.event_counts.getD c 0 := by
    rw [hc₁]
    split
    · exact listResize_pad_getD s.event_counts (ch + 1) 0 c (by omega)
    · rfl
  have hlen : ch < counts₁.length := by
    rw [hc₁]
    split
    · rw [listResize_length]
      omega
    · omega
  have hstep : (counts₁.set ch (counts₁.getD ch 0 ⊔ ne.length)).getD c 0 =
      if c = ch then counts₁.getD ch 0 ⊔ ne.length
      else counts₁.getD c 0 := by
    rcases eq_or_ne c ch with rfl | hne
    · simp [List.getD_eq_getElem?_getD, List.getElem?_set_self hlen]
    · simp [List.getD_eq_getElem?_getD,
        List.getElem?_set_ne (Ne.symm hne), hne]
  have hfin : counts₁.getD c 0 ≤
      (counts₁.set ch (counts₁.getD ch 0 ⊔ ne.length)).getD c 0 := by
    rw [hstep]
    rcases eq_or_ne c ch with rfl | hne
    · rw [if_pos rfl]
      exact Nat.le_max_left _ _
    · rw [if_neg hne]
  exact le_trans (le_of_eq hbase.symm) hfin

/-- After `add`, the added channel's recorded max width covers the
submitted stack. -/
theorem counts_add_self (s : CycleNoteEvents) (ch : Nat) (t l : Fraction)
    (ne : List (Option NoteEvent)) :
    ne.length ≤ (s.add ch t l ne).event_counts.getD ch 0 := by
  unfold CycleNoteEvents.add
  simp only
  set counts₁ :=
    if s.event_counts.length ≤ ch then
      listResize s.event_counts (ch + 1) 0
    else s.event_counts with hc₁
  have hlen : ch < counts₁.length := by
    rw [hc₁]
    split
    · rw [listResize_length]
      omega
    · omega
  have hset : (counts₁.set ch (counts₁.getD ch 0 ⊔ ne.length)).getD ch 0 =
      counts₁.getD ch 0 ⊔ ne.length := by
    simp [List.getD_eq_getElem?_getD, List.getElem?_set_self hlen]
  exact le_trans (Nat.le_max_right _ _) (le_of_eq hset.symm)

/-- Every entry of the updated event list is an old entry, the rewritten
entry at the added start, or the freshly inserted entry. -/
theorem mem_addToEvents_cases
    (events : List (Fraction × Fraction × List (Option Event)))
    (ch : Nat) (t l : Fraction) (ne : List (Option NoteEvent))
    (e' : Fraction × Fraction × List (Option Event))
    (he' : e' ∈ addToEvents events ch t l ne) :
    e' ∈ events ∨
    (∃ e ∈ events, e' = (e.1, min e.2.1 l,
      (listResize e.2.2 (ch + 1) none).set ch
        (some (Event.NoteEvents ne)))) ∨
    e' = (t, l, (List.replicate (ch + 1) none).set ch
      (some (Event.NoteEvents ne))) := by
  induction events with
  | nil =>
    simp [addToEvents] at he'
    tauto
  | cons e rest ih =>
    obtain ⟨time, len, slots⟩ := e
    by_cases hlt : t < time
    · simp only [addToEvents, if_pos hlt, List.mem_cons] at he'
      rcases he' with rfl | he'
      · tauto
      · rcases he' with rfl | he'
        · left
          exact List.mem_cons_self _ _
        · left
          exact List.mem_cons_of_mem _ he'
    · by_cases heq : t = time
      · subst heq
        have hunf : addToEvents ((t, len, slots) :: rest) ch t l ne =
            (t, min len l, (listResize slots (ch + 1) none).set ch
              (some (Event.NoteEvents ne))) :: rest := by
          simp [addToEvents]
        rw [hunf] at he'
        rcases List.mem_cons.mp he' with rfl | he'
        · right
          left
          exact ⟨(t, len, slots), List.mem_cons_self _ _, rfl⟩
        · left
          exact List.mem_cons_of_mem _ he'
      · simp only [addToEvents, if_neg hlt, if_neg heq] at he'
        rcases List.mem_cons.mp he' with rfl | he'
        · left
          exact List.mem_cons_self _ _
        · rcases ih he' with h | h | h
          · left
            exact List.mem_cons_of_mem _ h
          · right
            left
            obtain ⟨e, hmem, heq'⟩ := h
            exact ⟨e, List.mem_cons_of_mem _ hmem, heq'⟩
          · tauto

/-- Every stored stack fits inside its channel's recorded max width. -/
def stacksBounded (s : CycleNoteEvents) : Prop :=
  ∀ e ∈ s.events, ∀ (c : Nat) (ne : List (Option NoteEvent)),
    e.2.2.getD c none = some (Event.NoteEvents ne) →
    ne.length ≤ s.event_counts.getD c 0

/-- `add` preserves the stack-width invariant. -/
theorem stacksBounded_add (s : CycleNoteEvents) (ch : Nat)
    (t l : Fraction) (ne : List (Option NoteEvent))
    (hb : stacksBounded s) : stacksBounded (s.add ch t l ne) := by
  intro e' he' c ne' hget
  rcases mem_addToEvents_cases s.events ch t l ne e' he' with h | h | h
  · exact le_trans (hb e' h c ne' hget) (counts_add_mono s ch t l ne c)
  · obtain ⟨e, hmem, rfl⟩ := h
    simp only at hget
    have hg := resizeSet_getD e.2.2 ch (some (Event.NoteEvents ne))
      (none : Option Event) c
    rw [hget] at hg
    rcases eq_or_ne c ch with rfl | hne
    · rw [if_pos rfl] at hg
      obtain rfl : ne' = ne := by
        injection hg with h1
        injection h1
      exact counts_add_self s c t l ne'
    · rw [if_neg hne] at hg
      by_cases hlt : c < ch
      · rw [if_pos hlt] at hg
        exact le_trans (hb e hmem c ne' hg.symm)
          (counts_add_mono s ch t l ne c)
      · rw [if_neg hlt] at hg
        cases hg
  · subst h
    simp only at hget
    have hg := replicateSet_getD ch (some (Event.NoteEvents ne))
      (none : Option Event) c
    rw [hget] at hg
    rcases eq_or_ne c ch with rfl | hne
    · rw [if_pos rfl] at hg
      obtain rfl : ne' = ne := by
        injection hg with h1
        injection h1
      exact counts_add_self s c t l ne'
    · rw [if_neg hne] at hg
      cases hg

/-- Replaying a pass from any bounded state keeps stacks bounded. -/
theorem stacksBounded_applyAddsFrom (ops : List AddOp)
    (s : CycleNoteEvents) (hb : stacksBounded s) :
    stacksBounded (applyAddsFrom s ops) := by
  induction ops generalizing s with
  | nil => exact hb
  | cons op rest ih =>
    exact ih _ (stacksBounded_add s op.channel op.start op.length op.notes hb)

/-- The fresh accumulator is trivially bounded. -/
theorem stacksBounded_new : stacksBounded CycleNoteEvents.new := by
  intro e he
  simp [CycleNoteEvents.new] at he

/-- C1 counterexample: a pass where channel 0 fires at starts 0 and 1 and
channel 1 fires only at start 0 — both channels fired in the pass (max
widths `[1, 1]`), yet the flattened event at start 1 has 1 slot, not the
claimed sum 2: channel 1 contributes nothing there instead of a `None`
stack, because the padding loop only walks the channels present in the
instant's slot vector. -/
theorem C1_flatten_width_counterexample :
    (applyAdds
        [⟨0, 0, 1, [new_note (Note.midi 60)]⟩,
         ⟨0, 1, 1, [new_note (Note.midi 62)]⟩,
         ⟨1, 0, 1, [new_note (Note.midi 64)]⟩]).event_counts = [1, 1] ∧
    (applyAdds
        [⟨0, 0, 1, [new_note (Note.midi 60)]⟩,
         ⟨0, 1, 1, [new_note (Note.midi 62)]⟩,
         ⟨1, 0, 1, [new_note (Note.midi 64)]⟩]).into_event_iter_items.map
      EmitterEvent.stackWidth = [2, 1] ∧
    ([1, 1] : List Nat).sum = 2 := by
  refine ⟨rfl, rfl, rfl⟩

/-- C1 amended: in any pass, a flattened composite event's stack width is
the sum of max widths of the channels present in that instant's slot
vector, that is of the channels up to the highest channel that fired at
that instant; within that range each channel's sub-range is its real stack
right-padded with OFF notes to its max width, or an all-`None` stack of
its max width if it produced nothing at the instant; channels above the
instant's highest firing channel contribute nothing even when they fired
elsewhere in the pass. -/
theorem C1_flatten_width_amended (ops : List AddOp)
    (_hfire : ∀ c, c < (applyAdds ops).event_counts.length →
      0 < (applyAdds ops).event_counts.getD c 0) :
    ∀ e ∈ (applyAdds ops).events,
      (flattenEntry (applyAdds ops).event_counts e).start = e.1 ∧
      (flattenEntry (applyAdds ops).event_counts e).length = e.2.1 ∧
      (flattenEntry (applyAdds ops).event_counts e).stackWidth =
        widthSumFrom (applyAdds ops).event_counts 0 e.2.2.length ∧
      (∀ c, c < e.2.2.length →
        (((flattenEntry (applyAdds ops).event_counts e).noteStack.drop
            (widthSumFrom (applyAdds ops).event_counts 0 c)).take
          ((applyAdds ops).event_counts.getD c 0)) =
        match e.2.2.getD c none with
        | some (Event.NoteEvents ne) =>
          ne ++ List.replicate
            ((applyAdds ops).event_counts.getD c 0 - ne.length)
            (new_note Note.off)
        | none =>
          List.replicate ((applyAdds ops).event_counts.getD c 0) none) := by
  intro e he
  have hmerge : (flattenEntry (applyAdds ops).event_counts e).noteStack =
      ((List.enumFrom 0 e.2.2).map
        (fun ce => channelContent (applyAdds ops).event_counts
          ce.1 ce.2)).flatten := by
    show mergeChannelEvents (e.2.2.enum.map
      (fun ce => padChannelEvent (applyAdds ops).event_counts ce.1 ce.2)) = _
    exact merge_pad_enumFrom (applyAdds ops).event_counts e.2.2 0
  refine ⟨rfl, rfl, ?_, ?_⟩
  · show (flattenEntry (applyAdds ops).event_counts e).noteStack.length = _
    rw [hmerge]
    exact flatten_content_length (applyAdds ops).event_counts e.2.2 0
  · intro c hc
    rw [hmerge]
    have hx := flatten_content_extract (applyAdds ops).event_counts
      e.2.2 0 c hc
    rw [Nat.zero_add] at hx
    rw [hx]
    cases hget : e.2.2.getD c none with
    | none => rfl
    | some ev =>
      cases ev with
      | NoteEvents ne =>
        have hbnd : ne.length ≤ (applyAdds ops).event_counts.getD c 0 :=
          stacksBounded_applyAddsFrom ops CycleNoteEvents.new
            stacksBounded_new e he c ne hget
        exact listResize_of_le ne ((applyAdds ops).event_counts.getD c 0)
          (new_note Note.off) hbnd

/-- Witness for C1's amended statement: channels 0,1,2 with channel 1
firing only at start 0; at start 1 the slot vector covers channels 0..2,
the width is the sum of their max widths, channel 0's sub-range is its
padded stack and channel 1's sub-range is an all-`None` stack. -/
theorem C1_flatten_width_amended_witness :
    ((flattenEntry (applyAdds
        [⟨0, 0, 1, [new_note (Note.midi 60)]⟩,
         ⟨0, 1, 1, [new_note (Note.midi 62)]⟩,
         ⟨1, 0, 1, [new_note (Note.midi 64)]⟩,
         ⟨2, 1, 1, [new_note (Note.midi 66)]⟩]).event_counts
        (1, 1, [some (Event.NoteEvents [new_note (Note.midi 62)]), none,
                some (Event.NoteEvents [new_note (Note.midi 66)])])).stackWidth =
      widthSumFrom (applyAdds
        [⟨0, 0, 1, [new_note (Note.midi 60)]⟩,
         ⟨0, 1, 1, [new_note (Note.midi 62)]⟩,
         ⟨1, 0, 1, [new_note (Note.midi 64)]⟩,
         ⟨2, 1, 1, [new_note (Note.midi 66)]⟩]).event_counts 0 3) ∧
    ((((flattenEntry (applyAdds
        [⟨0, 0, 1, [new_note (Note.midi 60)]⟩,
         ⟨0, 1, 1, [new_note (Note.midi 62)]⟩,
         ⟨1, 0, 1, [new_note (Note.midi 64)]⟩,
         ⟨2, 1, 1, [new_note (Note.midi 66)]⟩]).event_counts
        (1, 1, [some (Event.NoteEvents [new_note (Note.midi 62)]), none,
                some (Event.NoteEvents [new_note (Note.midi 66)])])).noteStack.drop
          (widthSumFrom (applyAdds
            [⟨0, 0, 1, [new_note (Note.midi 60)]⟩,
             ⟨0, 1, 1, [new_note (Note.midi 62)]⟩,
             ⟨1, 0, 1, [new_note (Note.midi 64)]⟩,
             ⟨2, 1, 1, [new_note (Note.midi 66)]⟩]).event_counts 0 1)).take
        ((applyAdds
            [⟨0, 0, 1, [new_note (Note.midi 60)]⟩,
             ⟨0, 1, 1, [new_note (Note.midi 62)]⟩,
             ⟨1, 0, 1, [new_note (Note.midi 64)]⟩,
             ⟨2, 1, 1, [new_note (Note.midi 66)]⟩]).event_counts.getD 1 0)) =
      List.replicate ((applyAdds
        [⟨0, 0, 1, [new_note (Note.midi 60)]⟩,
         ⟨0, 1, 1, [new_note (Note.midi 62)]⟩,
         ⟨1, 0, 1, [new_note (Note.midi 64)]⟩,
         ⟨2, 1, 1, [new_note (Note.midi 66)]⟩]).event_counts.getD 1 0) none) := by
  have h := C1_flatten_width_amended
    [⟨0, 0, 1, [new_note (Note.midi 60)]⟩,
     ⟨0, 1, 1, [new_note (Note.midi 62)]⟩,
     ⟨1, 0, 1, [new_note (Note.midi 64)]⟩,
     ⟨2, 1, 1, [new_note (Note.midi 66)]⟩]
    (by decide)
    (1, 1, [some (Event.NoteEvents [new_note (Note.midi 62)]), none,
            some (Event.NoteEvents [new_note (Note.midi 66)])])
    (by decide)
  exact ⟨h.2.2.1, h.2.2.2 1 (by decide)⟩
